import Mathlib

/-!
Formal model of the context-aware retrieval subsystem of CentrAlignWebapp
(src/backend/src/services/embedding.ts), in exact real-number semantics.
Text is modelled as a list of UTF-16 code units (natural numbers) and
JavaScript numbers as exact rationals/reals; the record-store adapter
(Mongoose queries) is modelled per the spec's `fetch_candidates` contract
as filtering/sorting/truncating an in-memory list of records.
-/

/-- Dimension of the hash embedding (`new Array(128).fill(0)` in the source). -/
def embedDim : Nat := 128

/-- Truncation of an integer to JavaScript 32-bit signed semantics
    (the effect of the `<< 5` and `hash & hash` coercions in the source). -/
def toInt32 (n : Int) : Int := (n + 2 ^ 31) % 2 ^ 32 - 2 ^ 31

/-- One iteration of `hash = ((hash << 5) - hash) + word.charCodeAt(i); hash = hash & hash`. -/
def hashStep (h : Int) (c : Nat) : Int := toInt32 (toInt32 (h * 32) - h + c)

/-- The string hash computed by `simpleHashEmbedding` for one word. -/
def hashWord (w : List Nat) : Int := w.foldl hashStep 0

/-- Bucket index `Math.abs(hash) % embedding.length`. -/
def bucketIdx (w : List Nat) : Nat := (hashWord w).natAbs % embedDim

/-- ASCII case mapping performed by JavaScript `toLowerCase`, per code unit. -/
def jsLowerCode (c : Nat) : Nat := if 65 ≤ c ∧ c ≤ 90 then c + 32 else c

/-- Code units matched by the regular-expression class `\s` (JavaScript whitespace). -/
def isJsSpace (c : Nat) : Bool :=
  c == 9 || c == 10 || c == 11 || c == 12 || c == 13 || c == 32 || c == 160 ||
  c == 5760 || (decide (8192 ≤ c) && decide (c ≤ 8202)) || c == 8232 ||
  c == 8233 || c == 8239 || c == 8287 || c == 12288 || c == 65279

/-- `text.split(/\s+/)`: split on maximal runs of whitespace.  A leading or
    trailing run contributes an empty field, and the empty string splits to
    a single empty field (so the word list is never empty). -/
def splitWs : List Nat → List (List Nat)
  | [] => [[]]
  | c :: rest =>
    if isJsSpace c then
      match rest with
      | [] => [] :: splitWs rest
      | d :: _ => if isJsSpace d then splitWs rest else [] :: splitWs rest
    else
      match splitWs rest with
      | [] => [[c]]
      | w :: ws => (c :: w) :: ws

/-- The `words.forEach((word, index) => ...)` loop: accumulate
    `1 / (index + 1)` into the hash bucket of each word. -/
def accumWords : Nat → List (List Nat) → List ℚ → List ℚ
  | _, [], emb => emb
  | i, w :: ws, emb =>
    accumWords (i + 1) ws
      (emb.set (bucketIdx w) (emb.getD (bucketIdx w) 0 + 1 / ((i : ℚ) + 1)))

/-- The unnormalized bucket array built by `simpleHashEmbedding`. -/
def rawEmbedding (ws : List (List Nat)) : List ℚ :=
  accumWords 0 ws (List.replicate embedDim 0)

/-- `embedding.reduce((sum, val) => sum + val * val, 0)` over exact rationals. -/
def sumSqQ (l : List ℚ) : ℚ := (l.map fun v => v * v).sum

/-- The same sum of squares over the reals (squared Euclidean norm). -/
noncomputable def sumSqR (l : List ℝ) : ℝ := (l.map fun v => v * v).sum

/-- `simpleHashEmbedding` (embedding.ts lines 31-52): lowercase, split on
    whitespace, hash every word into one of 128 buckets with weight
    `1 / (index + 1)`, then divide by the Euclidean norm when it is
    positive, otherwise return the array unchanged. -/
noncomputable def simpleHashEmbedding (t : List Nat) : List ℝ :=
  let emb := rawEmbedding (splitWs (t.map jsLowerCode))
  let magnitude : ℝ := Real.sqrt ((sumSqQ emb : ℚ) : ℝ)
  if 0 < magnitude then emb.map fun v : ℚ => (v : ℝ) / magnitude
  else emb.map fun v : ℚ => (v : ℝ)

/-- `generateEmbedding` delegates to the hash embedding. -/
noncomputable def generateEmbedding (t : List Nat) : List ℝ := simpleHashEmbedding t

/-- The dot-product accumulation of `cosineSimilarity`. -/
noncomputable def dotProduct (a b : List ℝ) : ℝ := (List.zipWith (· * ·) a b).sum

/-- `cosineSimilarity` (embedding.ts lines 57-72): total over all pairs of
    vectors — mismatched lengths and zero magnitudes yield `0`. -/
noncomputable def cosineSimilarity (a b : List ℝ) : ℝ :=
  if a.length ≠ b.length then 0
  else if sumSqR a = 0 ∨ sumSqR b = 0 then 0
  else dotProduct a b / (Real.sqrt (sumSqR a) * Real.sqrt (sumSqR b))

/-- A stored form record as seen by the retriever: owning user, optional
    embedding vector, creation timestamp. -/
structure FormRec where
  ownerId : Nat
  embedding : Option (List ℝ)
  createdAt : Int

/-- The similarity assigned to one candidate:
    `form.embedding ? cosineSimilarity(promptEmbedding, form.embedding) : 0`. -/
noncomputable def score (qv : List ℝ) (f : FormRec) : ℝ :=
  match f.embedding with
  | some e => cosineSimilarity qv e
  | none => 0

/-- `Form.find({ userId, embedding: { $exists: true, $ne: null } }).limit(1000)`:
    the record store returns records in insertion order, restricted to the
    owner's records that carry a vector, capped at 1000. -/
def candidateFetch (db : List FormRec) (uid : Nat) : List FormRec :=
  (db.filter fun f => f.ownerId == uid && f.embedding.isSome).take 1000

/-- Stable insertion into a list kept in descending `key` order; this models
    one step of `Array.prototype.sort` with the comparator
    `(a, b) => key(b) - key(a)` (ECMAScript sort is stable). -/
def keyInsert {α β : Type} [LinearOrder β] (key : α → β) (x : α) : List α → List α
  | [] => [x]
  | y :: ys => if key y ≤ key x then x :: y :: ys else y :: keyInsert key x ys

/-- Stable sort by descending `key`. -/
def keyInsSort {α β : Type} [LinearOrder β] (key : α → β) : List α → List α
  | [] => []
  | x :: xs => keyInsert key x (keyInsSort key xs)

/-- `formsWithSimilarity.sort((a, b) => b.similarity - a.similarity)`. -/
noncomputable def sortScored : List (FormRec × ℝ) → List (FormRec × ℝ) :=
  keyInsSort fun pr => pr.2

/-- `array.slice(0, e)`: a negative end index counts from the end of the
    array, and the result never extends past the array. -/
def jsSlice0 {α : Type} (l : List α) (e : Int) : List α :=
  if e < 0 then l.take (e + l.length).toNat else l.take e.toNat

/-- The scored candidate list built in `retrieveRelevantForms` (lines 98-103). -/
noncomputable def scoredList (db : List FormRec) (uid : Nat) (p : List Nat) :
    List (FormRec × ℝ) :=
  (candidateFetch db uid).map fun f => (f, score (generateEmbedding p) f)

/-- The relevance threshold test `item.similarity > 0.1`. -/
noncomputable def passesThreshold (pr : FormRec × ℝ) : Bool := decide ((0.1 : ℝ) < pr.2)

/-- The primary path of `retrieveRelevantForms` (lines 106-111): sort by
    descending similarity, `slice(0, topK)`, filter by the threshold,
    project the records. -/
noncomputable def rankedResults (db : List FormRec) (uid : Nat) (p : List Nat)
    (topK : Int) : List FormRec :=
  ((jsSlice0 (sortScored (scoredList db uid p)) topK).filter passesThreshold).map Prod.fst

/-- The recovery path (lines 116-119):
    `Form.find({ userId }).sort({ createdAt: -1 }).limit(topK)` — the
    owner's records (with or without a vector), most recent first, capped
    at `topK`. -/
def fallbackFetch (db : List FormRec) (uid : Nat) (topK : Int) : List FormRec :=
  (keyInsSort (fun f => f.createdAt) (db.filter fun f => f.ownerId == uid)).take topK.toNat

/-- `retrieveRelevantForms` (embedding.ts lines 78-121).  `infraFails`
    models a rejection thrown inside the `try` block (vectorization or the
    candidate fetch failing); the Boolean in the result models the
    observable fallback marker (`console.error` fires exactly on the
    fallback path). -/
noncomputable def retrieveRelevantForms (db : List FormRec) (infraFails : Bool)
    (uid : Nat) (p : List Nat) (topK : Int) : List FormRec × Bool :=
  if infraFails then (fallbackFetch db uid topK, true)
  else if (candidateFetch db uid).length = 0 then ([], false)
  else (rankedResults db uid p topK, false)

/-- The vector assigned to the empty prompt. -/
noncomputable def vEmpty : List ℝ := simpleHashEmbedding []

/-- Concrete record: owner 0, vector of the empty prompt, created at time 1. -/
noncomputable def exA : FormRec := ⟨0, some vEmpty, 1⟩

/-- Concrete record: owner 0, the same vector, created at time 2 (newer). -/
noncomputable def exB : FormRec := ⟨0, some vEmpty, 2⟩

/-- Concrete two-record store holding `exA` then `exB` (insertion order). -/
noncomputable def exDb : List FormRec := [exA, exB]

/-- Concrete record without a stored vector, owner 0. -/
def nvRec : FormRec := ⟨0, none, 5⟩

/-! ## Helper lemmas about the vectorizer -/

theorem splitWs_ne_nil (s : List Nat) : splitWs s ≠ [] := by
  induction s with
  | nil => simp [splitWs]
  | cons c rest ih =>
    simp only [splitWs]
    cases rest with
    | nil => by_cases hc : isJsSpace c <;> simp [hc, splitWs]
    | cons d tl =>
      by_cases hc : isJsSpace c
      · by_cases hd : isJsSpace d
        · simpa [hc, hd] using ih
        · simp [hc, hd]
      · simp only [hc]
        simp only [Bool.false_eq_true, if_false]
        cases hsp : splitWs (d :: tl) with
        | nil => exact absurd hsp ih
        | cons w ws => simp

theorem getD_set_self (l : List ℚ) (i : Nat) (x : ℚ) (h : i < l.length) :
    (l.set i x).getD i 0 = x := by
  induction l generalizing i with
  | nil => simp at h
  | cons a as ih =>
    match i with
    | 0 => simp [List.set]
    | n + 1 =>
      simp only [List.set, List.getD_cons_succ]
      exact ih n (by simpa using h)

theorem getD_set_other (l : List ℚ) (i j : Nat) (x : ℚ) (h : i ≠ j) :
    (l.set i x).getD j 0 = l.getD j 0 := by
  induction l generalizing i j with
  | nil => simp [List.set]
  | cons a as ih =>
    match i, j with
    | 0, 0 => exact absurd rfl h
    | 0, m + 1 => simp [List.set]
    | n + 1, 0 => simp [List.set]
    | n + 1, m + 1 =>
      simp only [List.set, List.getD_cons_succ]
      exact ih n m (by omega)

theorem getD_replicate_zero (n j : Nat) : (List.replicate n (0 : ℚ)).getD j 0 = 0 := by
  induction n generalizing j with
  | zero => simp [List.getD]
  | succ m ih =>
    match j with
    | 0 => simp [List.replicate_succ]
    | k + 1 => simp only [List.replicate_succ, List.getD_cons_succ]; exact ih k

theorem accumWords_length (ws : List (List Nat)) :
    ∀ (i : Nat) (emb : List ℚ), (accumWords i ws emb).length = emb.length := by
  induction ws with
  | nil => intro i emb; rfl
  | cons w tl ih =>
    intro i emb
    simp only [accumWords]
    rw [ih, List.length_set]

theorem bucketIdx_lt (w : List Nat) : bucketIdx w < embedDim :=
  Nat.mod_lt _ (by decide)

theorem accumWords_le (ws : List (List Nat)) :
    ∀ (i : Nat) (emb : List ℚ) (j : Nat), emb.length = embedDim →
      emb.getD j 0 ≤ (accumWords i ws emb).getD j 0 := by
  induction ws with
  | nil => intro i emb j _; exact le_refl _
  | cons w tl ih =>
    intro i emb j hlen
    simp only [accumWords]
    have hw : (0 : ℚ) ≤ 1 / ((i : ℚ) + 1) := by positivity
    have hstep : emb.getD j 0 ≤
        (emb.set (bucketIdx w) (emb.getD (bucketIdx w) 0 + 1 / ((i : ℚ) + 1))).getD j 0 := by
      by_cases hj : bucketIdx w = j
      · subst hj
        rw [getD_set_self _ _ _ (by rw [hlen]; exact bucketIdx_lt w)]
        linarith
      · rw [getD_set_other _ _ _ _ hj]
    refine hstep.trans (ih (i + 1) _ j ?_)
    rw [List.length_set, hlen]

theorem rawEmbedding_length (ws : List (List Nat)) : (rawEmbedding ws).length = embedDim := by
  unfold rawEmbedding
  rw [accumWords_length, List.length_replicate]

theorem rawEmbedding_head_pos (w : List Nat) (ws : List (List Nat)) :
    0 < (rawEmbedding (w :: ws)).getD (bucketIdx w) 0 := by
  unfold rawEmbedding accumWords
  have hlen : ((List.replicate embedDim (0 : ℚ)).set (bucketIdx w)
      ((List.replicate embedDim (0 : ℚ)).getD (bucketIdx w) 0 + 1 / ((0 : ℚ) + 1))).length
      = embedDim := by
    rw [List.length_set, List.length_replicate]
  have hone : ((List.replicate embedDim (0 : ℚ)).set (bucketIdx w)
      ((List.replicate embedDim (0 : ℚ)).getD (bucketIdx w) 0 + 1 / ((0 : ℚ) + 1))).getD
      (bucketIdx w) 0 = 1 := by
    rw [getD_set_self _ _ _ (by rw [List.length_replicate]; exact bucketIdx_lt w)]
    rw [getD_replicate_zero]
    norm_num
  have := accumWords_le ws 1 _ (bucketIdx w) hlen
  rw [hone] at this
  linarith

theorem sumSqQ_pos_of_entry (l : List ℚ) (j : Nat) (hj : j < l.length)
    (hpos : 0 < l.getD j 0) : 0 < sumSqQ l := by
  have hmem : l.getD j 0 ∈ l := by
    rw [List.getD_eq_getElem l 0 hj]
    exact List.getElem_mem hj
  have hmem2 : l.getD j 0 * l.getD j 0 ∈ l.map fun v => v * v :=
    List.mem_map_of_mem _ hmem
  have hle : l.getD j 0 * l.getD j 0 ≤ (l.map fun v => v * v).sum := by
    refine List.single_le_sum ?_ _ hmem2
    intro x hx
    obtain ⟨v, _, rfl⟩ := List.mem_map.mp hx
    exact mul_self_nonneg v
  have : 0 < l.getD j 0 * l.getD j 0 := mul_pos hpos hpos
  unfold sumSqQ
  linarith

theorem sumSqQ_raw_pos (s : List Nat) : 0 < sumSqQ (rawEmbedding (splitWs s)) := by
  obtain ⟨w, ws, hsplit⟩ : ∃ w ws, splitWs s = w :: ws := by
    match h : splitWs s with
    | [] => exact absurd h (splitWs_ne_nil s)
    | w :: ws => exact ⟨w, ws, rfl⟩
  rw [hsplit]
  exact sumSqQ_pos_of_entry _ (bucketIdx w)
    (by rw [rawEmbedding_length]; exact bucketIdx_lt w)
    (rawEmbedding_head_pos w ws)

theorem list_sum_map_div (l : List ℚ) (g : ℚ → ℝ) (c : ℝ) :
    (l.map fun v => g v / c).sum = (l.map g).sum / c := by
  induction l with
  | nil => simp
  | cons x xs ih => simp [ih, add_div]

theorem list_sum_cast (l : List ℚ) : ((l.sum : ℚ) : ℝ) = (l.map fun q : ℚ => (q : ℝ)).sum := by
  induction l with
  | nil => simp
  | cons x xs ih => rw [List.sum_cons, Rat.cast_add, ih, List.map_cons, List.sum_cons]

theorem sumSqR_map_div (l : List ℚ) (m : ℝ) :
    sumSqR (l.map fun v : ℚ => (v : ℝ) / m) = ((sumSqQ l : ℚ) : ℝ) / (m * m) := by
  unfold sumSqR
  rw [List.map_map]
  have h1 : ((fun v : ℝ => v * v) ∘ fun v : ℚ => (v : ℝ) / m) =
      fun v : ℚ => ((v : ℝ) * (v : ℝ)) / (m * m) := by
    funext v
    simp only [Function.comp]
    ring
  rw [h1, list_sum_map_div l (fun v => (v : ℝ) * (v : ℝ)) (m * m)]
  congr 1
  rw [show (fun v : ℚ => (v : ℝ) * (v : ℝ)) = fun v : ℚ => ((v * v : ℚ) : ℝ) by
    funext v; push_cast; ring]
  rw [show (l.map fun v : ℚ => ((v * v : ℚ) : ℝ)) =
      (l.map fun v : ℚ => v * v).map (fun q : ℚ => (q : ℝ)) by rw [List.map_map]; rfl]
  rw [← list_sum_cast]
  rfl

theorem vectorize_normalizes (t : List Nat) :
    simpleHashEmbedding t = (rawEmbedding (splitWs (t.map jsLowerCode))).map
      fun v : ℚ => (v : ℝ) /
        Real.sqrt ((sumSqQ (rawEmbedding (splitWs (t.map jsLowerCode))) : ℚ) : ℝ) := by
  have hq : (0 : ℝ) < ((sumSqQ (rawEmbedding (splitWs (t.map jsLowerCode))) : ℚ) : ℝ) := by
    exact_mod_cast sumSqQ_raw_pos (t.map jsLowerCode)
  simp only [simpleHashEmbedding]
  rw [if_pos (Real.sqrt_pos.mpr hq)]

theorem vectorize_sumSq_one (t : List Nat) : sumSqR (simpleHashEmbedding t) = 1 := by
  have hq : (0 : ℝ) < ((sumSqQ (rawEmbedding (splitWs (t.map jsLowerCode))) : ℚ) : ℝ) := by
    exact_mod_cast sumSqQ_raw_pos (t.map jsLowerCode)
  rw [vectorize_normalizes t, sumSqR_map_div, Real.mul_self_sqrt hq.le]
  exact div_self (ne_of_gt hq)

theorem vectorize_length (t : List Nat) : (simpleHashEmbedding t).length = embedDim := by
  rw [vectorize_normalizes t, List.length_map, rawEmbedding_length]

theorem dotProduct_self (a : List ℝ) : dotProduct a a = sumSqR a := by
  unfold dotProduct sumSqR
  induction a with
  | nil => rfl
  | cons x xs ih => simp only [List.zipWith, List.map, List.sum_cons, ih]

theorem sumSqR_nonneg (a : List ℝ) : 0 ≤ sumSqR a := by
  unfold sumSqR
  refine List.sum_nonneg ?_
  intro x hx
  obtain ⟨v, _, rfl⟩ := List.mem_map.mp hx
  exact mul_self_nonneg v

theorem cosineSimilarity_self (a : List ℝ) (h : sumSqR a ≠ 0) :
    cosineSimilarity a a = 1 := by
  unfold cosineSimilarity
  rw [if_neg (by simp), if_neg (by simp [h])]
  rw [dotProduct_self, Real.mul_self_sqrt (sumSqR_nonneg a)]
  exact div_self h

theorem cos_vectorize_self (t : List Nat) :
    cosineSimilarity (simpleHashEmbedding t) (simpleHashEmbedding t) = 1 :=
  cosineSimilarity_self _ (by rw [vectorize_sumSq_one]; exact one_ne_zero)

theorem getD_map_cast_div (l : List ℚ) (m : ℝ) (j : Nat) (hj : j < l.length) :
    (l.map fun v : ℚ => (v : ℝ) / m).getD j 0 = ((l.getD j 0 : ℚ) : ℝ) / m := by
  induction l generalizing j with
  | nil => simp at hj
  | cons x xs ih =>
    match j with
    | 0 => simp
    | n + 1 =>
      simp only [List.map, List.getD_cons_succ]
      exact ih n (by simpa using hj)

theorem sumSqQ_replicate_zero (n : Nat) : sumSqQ (List.replicate n (0 : ℚ)) = 0 := by
  induction n with
  | zero => simp [sumSqQ]
  | succ m ih => simp only [sumSqQ, List.replicate_succ, List.map_cons, List.sum_cons] at ih ⊢; simp [ih]

theorem rawEmbedding_single_empty :
    rawEmbedding (splitWs (([] : List Nat).map jsLowerCode)) = (1 : ℚ) :: List.replicate 127 0 := by
  have hb : bucketIdx [] = 0 := by decide
  show rawEmbedding (splitWs []) = _
  rw [show splitWs [] = [[]] from rfl]
  unfold rawEmbedding
  simp only [accumWords, hb]
  rw [show List.replicate embedDim (0 : ℚ) = 0 :: List.replicate 127 0 from rfl]
  simp only [List.getD_cons_zero, List.set]
  norm_num

theorem sumSqQ_raw_empty : sumSqQ (rawEmbedding (splitWs (([] : List Nat).map jsLowerCode))) = 1 := by
  rw [rawEmbedding_single_empty]
  simp only [sumSqQ, List.map_cons, List.sum_cons]
  have := sumSqQ_replicate_zero 127
  simp only [sumSqQ] at this
  rw [this]
  norm_num

theorem vectorize_empty_getD : (simpleHashEmbedding []).getD 0 0 = 1 := by
  rw [vectorize_normalizes []]
  have hlen : 0 < (rawEmbedding (splitWs (([] : List Nat).map jsLowerCode))).length := by
    rw [rawEmbedding_length]; decide
  rw [getD_map_cast_div _ _ 0 hlen]
  rw [sumSqQ_raw_empty, rawEmbedding_single_empty]
  simp only [List.getD_cons_zero]
  norm_num

/-! ## Claims about the vectorizer (C7, C10) -/

/-- Claim C7 (amended): in real-number semantics the Euclidean norm of
    `vectorize(t)` is exactly 1 for every text `t`, including the empty and
    whitespace-only texts — the split of any text yields at least one
    (possibly empty) word, every word deposits positive weight in a bucket,
    so the magnitude is always positive and the normalization branch is
    always taken; the all-zero vector is never returned.  The vector always
    has dimension 128. -/
theorem vectorize_unit_norm (t : List Nat) :
    Real.sqrt (sumSqR (simpleHashEmbedding t)) = 1 ∧
    (simpleHashEmbedding t).length = embedDim :=
  ⟨by rw [vectorize_sumSq_one]; exact Real.sqrt_one, vectorize_length t⟩

/-- Claim C7 counterexample: the empty text does not vectorize to the
    all-zero vector.  `"".split(/\s+/)` is `[""]`, the empty word hashes to
    bucket 0 with weight 1, and normalization yields the unit basis vector
    `e₀`, whose entry 0 is 1, not 0. -/
theorem vectorize_empty_not_zero :
    simpleHashEmbedding [] ≠ List.replicate embedDim (0 : ℝ) := by
  intro h
  have h0 : (simpleHashEmbedding []).getD 0 0 =
      (List.replicate embedDim (0 : ℝ)).getD 0 0 := by rw [h]
  rw [vectorize_empty_getD] at h0
  have hz : (List.replicate embedDim (0 : ℝ)).getD 0 0 = 0 := rfl
  rw [hz] at h0
  exact one_ne_zero h0

theorem jsLowerCode_idem (c : Nat) : jsLowerCode (jsLowerCode c) = jsLowerCode c := by
  by_cases h : 65 ≤ c ∧ c ≤ 90
  · have h1 : jsLowerCode c = c + 32 := if_pos h
    rw [h1]
    have h2 : ¬(65 ≤ c + 32 ∧ c + 32 ≤ 90) := by omega
    exact if_neg h2
  · have h1 : jsLowerCode c = c := if_neg h
    rw [h1]
    exact h1

theorem map_jsLowerCode_idem (t : List Nat) :
    (t.map jsLowerCode).map jsLowerCode = t.map jsLowerCode := by
  rw [List.map_map]
  congr 1
  funext c
  exact jsLowerCode_idem c

/-- Claim C10: the vectorizer lowercases its input before tokenizing and
    hashing, so `vectorize(t) = vectorize(lowercase(t))`, and two texts
    that agree after lowercasing receive identical vectors, whose cosine
    similarity is 1 (the vectors are never degenerate, by
    `vectorize_unit_norm`'s underlying lemmas). -/
theorem vectorize_case_insensitive :
    ∀ t t1 t2 : List Nat,
      simpleHashEmbedding (t.map jsLowerCode) = simpleHashEmbedding t ∧
      (t1.map jsLowerCode = t2.map jsLowerCode →
        simpleHashEmbedding t1 = simpleHashEmbedding t2 ∧
        cosineSimilarity (simpleHashEmbedding t1) (simpleHashEmbedding t2) = 1) := by
  have key : ∀ u v : List Nat, u.map jsLowerCode = v.map jsLowerCode →
      simpleHashEmbedding u = simpleHashEmbedding v := by
    intro u v huv
    unfold simpleHashEmbedding
    rw [huv]
  intro t t1 t2
  refine ⟨key _ _ (map_jsLowerCode_idem t), fun h => ⟨key _ _ h, ?_⟩⟩
  rw [key _ _ h]
  exact cos_vectorize_self t2

/-- Witness for C10 at a concrete input: the texts "Ab" (codes 65, 98) and
    "aB" (codes 97, 66) agree after lowercasing, so they receive the same
    vector, with similarity 1. -/
theorem vectorize_case_insensitive_check :
    simpleHashEmbedding [65, 98] = simpleHashEmbedding [97, 66] ∧
    cosineSimilarity (simpleHashEmbedding [65, 98]) (simpleHashEmbedding [97, 66]) = 1 :=
  (vectorize_case_insensitive [] [65, 98] [97, 66]).2 (by decide)

/-! ## Claims about the similarity scorer (C8, C9) -/

/-- Claim C8: `cosineSimilarity` is total — it is a function defined on all
    pairs of vectors (so it never raises), it returns exactly 0 when the
    lengths differ, and exactly 0 when either vector has zero magnitude. -/
theorem cosine_total (a b : List ℝ) :
    (a.length ≠ b.length → cosineSimilarity a b = 0) ∧
    ((sumSqR a = 0 ∨ sumSqR b = 0) → cosineSimilarity a b = 0) := by
  constructor
  · intro h
    unfold cosineSimilarity
    rw [if_pos h]
  · intro h
    unfold cosineSimilarity
    by_cases hl : a.length ≠ b.length
    · rw [if_pos hl]
    · rw [if_neg hl, if_pos h]

/-- Witness for C8 at concrete inputs: vectors of lengths 2 and 1 score 0;
    the zero vector scores 0 against [1, 1]. -/
theorem cosine_total_check :
    cosineSimilarity [1, 2] [1] = 0 ∧ cosineSimilarity [0, 0] [1, 1] = 0 :=
  ⟨(cosine_total [1, 2] [1]).1 (by decide),
   (cosine_total [0, 0] [1, 1]).2 (Or.inl (by norm_num [sumSqR]))⟩

theorem list_sum_map_range (l : List ℝ) (f : ℝ → ℝ) :
    (l.map f).sum = ∑ i in Finset.range l.length, f (l.getD i 0) := by
  induction l with
  | nil => simp
  | cons x xs ih =>
    rw [List.map_cons, List.sum_cons, List.length_cons, Finset.sum_range_succ']
    simp only [List.getD_cons_succ, List.getD_cons_zero]
    rw [ih]
    ring

theorem dotProduct_range (a : List ℝ) : ∀ b : List ℝ, a.length = b.length →
    dotProduct a b = ∑ i in Finset.range a.length, a.getD i 0 * b.getD i 0 := by
  induction a with
  | nil => intro b h; simp [dotProduct]
  | cons x xs ih =>
    intro b h
    match b with
    | [] => simp at h
    | y :: ys =>
      have h' : xs.length = ys.length := by simpa using h
      unfold dotProduct
      rw [List.zipWith_cons_cons, List.sum_cons, List.length_cons, Finset.sum_range_succ']
      simp only [List.getD_cons_succ, List.getD_cons_zero]
      have hx := ih ys h'
      unfold dotProduct at hx
      rw [hx]
      ring

theorem cosine_abs_le (a b : List ℝ) (h : a.length = b.length) :
    -1 ≤ cosineSimilarity a b ∧ cosineSimilarity a b ≤ 1 := by
  unfold cosineSimilarity
  rw [if_neg (by simp [h])]
  by_cases hz : sumSqR a = 0 ∨ sumSqR b = 0
  · rw [if_pos hz]; norm_num
  · rw [if_neg hz]
    push_neg at hz
    obtain ⟨ha, hb⟩ := hz
    have hA : 0 < sumSqR a := lt_of_le_of_ne (sumSqR_nonneg a) (Ne.symm ha)
    have hB : 0 < sumSqR b := lt_of_le_of_ne (sumSqR_nonneg b) (Ne.symm hb)
    have hcs : dotProduct a b * dotProduct a b ≤ sumSqR a * sumSqR b := by
      have h1 := Finset.sum_mul_sq_le_sq_mul_sq (Finset.range a.length)
        (fun i => a.getD i 0) (fun i => b.getD i 0)
      simp only [pow_two] at h1
      rw [dotProduct_range a b h]
      unfold sumSqR
      rw [list_sum_map_range a (fun v => v * v), list_sum_map_range b (fun v => v * v), ← h]
      exact h1
    have hAB : 0 < sumSqR a * sumSqR b := mul_pos hA hB
    have hs : dotProduct a b / (Real.sqrt (sumSqR a) * Real.sqrt (sumSqR b)) *
        (dotProduct a b / (Real.sqrt (sumSqR a) * Real.sqrt (sumSqR b))) =
        dotProduct a b * dotProduct a b / (sumSqR a * sumSqR b) := by
      rw [div_mul_div_comm]
      congr 1
      rw [show Real.sqrt (sumSqR a) * Real.sqrt (sumSqR b) *
          (Real.sqrt (sumSqR a) * Real.sqrt (sumSqR b)) =
          Real.sqrt (sumSqR a) * Real.sqrt (sumSqR a) *
          (Real.sqrt (sumSqR b) * Real.sqrt (sumSqR b)) by ring]
      rw [Real.mul_self_sqrt (sumSqR_nonneg a), Real.mul_self_sqrt (sumSqR_nonneg b)]
    have hle1 : dotProduct a b / (Real.sqrt (sumSqR a) * Real.sqrt (sumSqR b)) *
        (dotProduct a b / (Real.sqrt (sumSqR a) * Real.sqrt (sumSqR b))) ≤ 1 := by
      rw [hs]
      exact (div_le_one hAB).mpr hcs
    exact abs_le.mp (abs_le_one_iff_mul_self_le_one.mpr hle1)

theorem dotProduct_comm (a : List ℝ) : ∀ b, dotProduct a b = dotProduct b a := by
  induction a with
  | nil => intro b; cases b <;> rfl
  | cons x xs ih =>
    intro b
    cases b with
    | nil => rfl
    | cons y ys =>
      unfold dotProduct
      rw [List.zipWith_cons_cons, List.zipWith_cons_cons, List.sum_cons, List.sum_cons]
      have hy := ih ys
      unfold dotProduct at hy
      rw [hy, mul_comm]

theorem cosine_symm (a b : List ℝ) : cosineSimilarity a b = cosineSimilarity b a := by
  unfold cosineSimilarity
  by_cases hl : a.length = b.length
  · rw [if_neg (show ¬a.length ≠ b.length by simp [hl]),
      if_neg (show ¬b.length ≠ a.length by simp [hl])]
    by_cases hz : sumSqR a = 0 ∨ sumSqR b = 0
    · rw [if_pos hz, if_pos (Or.symm hz)]
    · rw [if_neg hz, if_neg (show ¬(sumSqR b = 0 ∨ sumSqR a = 0) from fun hc => hz (Or.symm hc))]
      rw [dotProduct_comm, mul_comm]
  · rw [if_pos (show a.length ≠ b.length from hl),
      if_pos (show b.length ≠ a.length from fun hc => hl hc.symm)]

theorem sumSqR_ne_zero_of_mem (a : List ℝ) (x : ℝ) (hx : x ∈ a) (hne : x ≠ 0) :
    sumSqR a ≠ 0 := by
  have hmem : x * x ∈ a.map fun v => v * v := List.mem_map_of_mem _ hx
  have hle : x * x ≤ (a.map fun v => v * v).sum := by
    refine List.single_le_sum ?_ _ hmem
    intro y hy
    obtain ⟨v, _, rfl⟩ := List.mem_map.mp hy
    exact mul_self_nonneg v
  have hpos : 0 < x * x := mul_self_pos.mpr hne
  unfold sumSqR
  intro hzero
  rw [hzero] at hle
  linarith

/-- Claim C9: for equal-length vectors the cosine similarity lies in
    [-1, 1] (Cauchy-Schwarz); a vector with a non-zero component has
    self-similarity exactly 1; and the function is symmetric in its
    arguments. -/
theorem cosine_bounds (a b : List ℝ) :
    (a.length = b.length → -1 ≤ cosineSimilarity a b ∧ cosineSimilarity a b ≤ 1) ∧
    ((∃ x ∈ a, x ≠ 0) → cosineSimilarity a a = 1) ∧
    cosineSimilarity a b = cosineSimilarity b a := by
  refine ⟨fun h => cosine_abs_le a b h, fun hx => ?_, cosine_symm a b⟩
  obtain ⟨x, hm, hne⟩ := hx
  exact cosineSimilarity_self a (sumSqR_ne_zero_of_mem a x hm hne)

/-- Witness for C9 at concrete inputs: bounds for [1,2] vs [3,4],
    self-similarity of the non-zero vector [1,0], and symmetry. -/
theorem cosine_bounds_check :
    (-1 ≤ cosineSimilarity [1, 2] [3, 4] ∧ cosineSimilarity [1, 2] [3, 4] ≤ 1) ∧
    cosineSimilarity [1, 0] [1, 0] = 1 ∧
    cosineSimilarity [1, 2] [3, 4] = cosineSimilarity [3, 4] [1, 2] :=
  ⟨(cosine_bounds [1, 2] [3, 4]).1 rfl,
   (cosine_bounds [1, 0] [1, 0]).2.1 ⟨1, by simp, one_ne_zero⟩,
   (cosine_bounds [1, 2] [3, 4]).2.2⟩

/-! ## Helper lemmas about the stable descending sort -/

theorem keyInsert_perm {α β : Type} [LinearOrder β] (key : α → β) (x : α) :
    ∀ l : List α, (keyInsert key x l).Perm (x :: l) := by
  intro l
  induction l with
  | nil => exact List.Perm.refl _
  | cons y ys ih =>
    unfold keyInsert
    by_cases h : key y ≤ key x
    · rw [if_pos h]
    · rw [if_neg h]
      exact (ih.cons y).trans (List.Perm.swap x y ys)

theorem mem_keyInsSort {α β : Type} [LinearOrder β] (key : α → β) (l : List α) (a : α) :
    a ∈ keyInsSort key l ↔ a ∈ l := by
  induction l with
  | nil => simp [keyInsSort]
  | cons x xs ih =>
    show a ∈ keyInsert key x (keyInsSort key xs) ↔ _
    rw [(keyInsert_perm key x (keyInsSort key xs)).mem_iff]
    simp [ih]

theorem keyInsert_pairwise {α β : Type} [LinearOrder β] (key : α → β) (x : α) (l : List α)
    (hl : l.Pairwise fun a b => key b ≤ key a) :
    (keyInsert key x l).Pairwise fun a b => key b ≤ key a := by
  induction l with
  | nil => simp [keyInsert]
  | cons y ys ih =>
    unfold keyInsert
    by_cases h : key y ≤ key x
    · rw [if_pos h]
      refine List.Pairwise.cons ?_ hl
      intro z hz
      rcases List.mem_cons.mp hz with rfl | hz'
      · exact h
      · exact ((List.pairwise_cons.mp hl).1 z hz').trans h
    · rw [if_neg h]
      have hys := (List.pairwise_cons.mp hl).2
      refine List.Pairwise.cons ?_ (ih hys)
      intro z hz
      rw [(keyInsert_perm key x ys).mem_iff] at hz
      rcases List.mem_cons.mp hz with rfl | hz'
      · exact (not_le.mp h).le
      · exact (List.pairwise_cons.mp hl).1 z hz'

theorem keyInsSort_pairwise {α β : Type} [LinearOrder β] (key : α → β) (l : List α) :
    (keyInsSort key l).Pairwise fun a b => key b ≤ key a := by
  induction l with
  | nil => simp [keyInsSort]
  | cons x xs ih => exact keyInsert_pairwise key x _ ih

theorem keyInsert_filter_stable {α β : Type} [LinearOrder β] (key : α → β) (p : α → Bool)
    (hp : ∀ x y, p x = true → p y = true → key x = key y) (x : α) :
    ∀ l : List α, (keyInsert key x l).filter p = (x :: l).filter p := by
  intro l
  induction l with
  | nil => rfl
  | cons y ys ih =>
    unfold keyInsert
    by_cases h : key y ≤ key x
    · rw [if_pos h]
    · rw [if_neg h]
      simp only [List.filter_cons, ih]
      by_cases hx : p x = true <;> by_cases hy : p y = true
      · exact absurd hy fun hy' => h ((hp x y hx hy').symm.le)
      · simp [hx, hy]
      · simp [hx, hy]
      · simp [hx, hy]

theorem keyInsSort_filter_stable {α β : Type} [LinearOrder β] (key : α → β) (p : α → Bool)
    (hp : ∀ x y, p x = true → p y = true → key x = key y) :
    ∀ l : List α, (keyInsSort key l).filter p = l.filter p := by
  intro l
  induction l with
  | nil => rfl
  | cons x xs ih =>
    show (keyInsert key x (keyInsSort key xs)).filter p = _
    rw [keyInsert_filter_stable key p hp x (keyInsSort key xs)]
    simp only [List.filter_cons, ih]

theorem filter_take_comm {α β : Type} [LinearOrder β] (key : α → β) (p : α → Bool)
    (hmono : ∀ x y, key y ≤ key x → p y = true → p x = true) :
    ∀ l : List α, (l.Pairwise fun a b => key b ≤ key a) → ∀ n : Nat,
      (l.take n).filter p = (l.filter p).take n := by
  intro l
  induction l with
  | nil => intro _ n; simp
  | cons x xs ih =>
    intro hl n
    match n with
    | 0 => simp
    | m + 1 =>
      by_cases hx : p x = true
      · rw [List.take_succ_cons,
          show (x :: xs).filter p = x :: xs.filter p from by simp [List.filter_cons, hx],
          show (x :: xs.take m).filter p = x :: (xs.take m).filter p from by
            simp [List.filter_cons, hx],
          List.take_succ_cons, ih (List.pairwise_cons.mp hl).2 m]
      · have hxs : ∀ y ∈ xs, ¬p y = true := by
          intro y hy hpy
          exact hx (hmono x y ((List.pairwise_cons.mp hl).1 y hy) hpy)
        have h1 : xs.filter p = [] :=
          List.filter_eq_nil_iff.mpr fun y hy => hxs y hy
        have h2 : (xs.take m).filter p = [] :=
          List.filter_eq_nil_iff.mpr fun y hy => hxs y (List.mem_of_mem_take hy)
        rw [List.take_succ_cons]
        simp only [List.filter_cons, if_neg hx]
        rw [h1, h2]
        simp

/-! ## Helper lemmas about the retriever -/

theorem mem_jsSlice0 {α : Type} (l : List α) (e : Int) (a : α) (h : a ∈ jsSlice0 l e) :
    a ∈ l := by
  unfold jsSlice0 at h
  by_cases he : e < 0
  · rw [if_pos he] at h; exact List.mem_of_mem_take h
  · rw [if_neg he] at h; exact List.mem_of_mem_take h

theorem mem_scoredList (db : List FormRec) (uid : Nat) (p : List Nat) (pr : FormRec × ℝ)
    (h : pr ∈ scoredList db uid p) :
    pr.1 ∈ candidateFetch db uid ∧ pr.2 = score (generateEmbedding p) pr.1 := by
  unfold scoredList at h
  obtain ⟨f, hf, rfl⟩ := List.mem_map.mp h
  exact ⟨hf, rfl⟩

theorem mem_candidateFetch (db : List FormRec) (uid : Nat) (f : FormRec)
    (h : f ∈ candidateFetch db uid) : f.ownerId = uid ∧ f.embedding.isSome = true := by
  unfold candidateFetch at h
  have h2 := List.mem_of_mem_take h
  have h3 := (List.mem_filter.mp h2).2
  simpa using h3

theorem mem_rankedResults (db : List FormRec) (uid : Nat) (p : List Nat) (k : Int)
    (r : FormRec) (h : r ∈ rankedResults db uid p k) :
    ∃ pr : FormRec × ℝ, pr ∈ sortScored (scoredList db uid p) ∧ pr.1 = r ∧
      passesThreshold pr = true := by
  unfold rankedResults at h
  obtain ⟨pr, hpr, rfl⟩ := List.mem_map.mp h
  have h1 := List.mem_filter.mp hpr
  exact ⟨pr, mem_jsSlice0 _ _ _ h1.1, rfl, h1.2⟩

theorem mem_sortScored_scored (db : List FormRec) (uid : Nat) (p : List Nat)
    (pr : FormRec × ℝ) (h : pr ∈ sortScored (scoredList db uid p)) :
    pr.1 ∈ candidateFetch db uid ∧ pr.2 = score (generateEmbedding p) pr.1 :=
  mem_scoredList db uid p pr
    ((mem_keyInsSort (fun q : FormRec × ℝ => q.2) _ _).mp h)

theorem mem_retrieve_primary (db : List FormRec) (uid : Nat) (p : List Nat) (k : Int)
    (r : FormRec) (h : r ∈ (retrieveRelevantForms db false uid p k).1) :
    r ∈ candidateFetch db uid := by
  unfold retrieveRelevantForms at h
  rw [if_neg (show ¬(false = true) by simp)] at h
  by_cases hc : (candidateFetch db uid).length = 0
  · rw [if_pos hc] at h
    simp at h
  · rw [if_neg hc] at h
    obtain ⟨pr, hpr, rfl, _⟩ := mem_rankedResults db uid p k _ h
    exact (mem_sortScored_scored db uid p pr hpr).1

/-! ## Claims about the retriever (C1-C6) -/

/-- Claim C6: on both the primary and the fallback path, every record that
    `retrieveRelevantForms` returns belongs to the requested owner — both
    store queries filter on `userId`. -/
theorem retrieve_owner_scoped (db : List FormRec) (infraFails : Bool) (uid : Nat)
    (p : List Nat) (k : Int) :
    ((retrieveRelevantForms db infraFails uid p k).1).Forall fun f => f.ownerId = uid := by
  rw [List.forall_iff_forall_mem]
  intro f hf
  cases infraFails with
  | true =>
    have he : (retrieveRelevantForms db true uid p k).1 = fallbackFetch db uid k := rfl
    rw [he] at hf
    unfold fallbackFetch at hf
    have h2 := List.mem_of_mem_take hf
    have h3 := (mem_keyInsSort (fun f : FormRec => f.createdAt) _ _).mp h2
    simpa using (List.mem_filter.mp h3).2
  | false =>
    exact (mem_candidateFetch db uid f (mem_retrieve_primary db uid p k f hf)).1

/-- Claim C5 (amended): on the primary path every returned record carries a
    non-null vector (the candidate query filters on the vector field); the
    fallback path queries without that filter, so it can return vectorless
    records (see the counterexample). -/
theorem primary_results_have_vectors (db : List FormRec) (uid : Nat) (p : List Nat)
    (k : Int) :
    ((retrieveRelevantForms db false uid p k).1).Forall fun f => f.embedding.isSome = true := by
  rw [List.forall_iff_forall_mem]
  intro f hf
  exact (mem_candidateFetch db uid f (mem_retrieve_primary db uid p k f hf)).2

/-- Claim C5 counterexample: a store holding a single record without a
    vector; when the candidate fetch fails, the fallback returns that
    record, so the retriever does return a record with a null vector. -/
theorem fallback_returns_vectorless :
    (retrieveRelevantForms [nvRec] true 0 [] 1).1 = [nvRec] ∧ nvRec.embedding = none :=
  ⟨rfl, rfl⟩

/-- Claim C2: on failure the retriever returns exactly the fallback fetch
    with the fallback flag true; the fallback holds at most `k` records,
    all of the owner, ordered by `created_at` descending; on a successful
    fetch with no qualifying candidates it returns the empty list with the
    flag false. -/
theorem retrieve_fallback_distinctness (db : List FormRec) (uid : Nat) (p : List Nat)
    (k : Int) :
    retrieveRelevantForms db true uid p k = (fallbackFetch db uid k, true) ∧
    (fallbackFetch db uid k).length ≤ k.toNat ∧
    (fallbackFetch db uid k).Pairwise (fun f g => g.createdAt ≤ f.createdAt) ∧
    (fallbackFetch db uid k).Forall (fun f => f.ownerId = uid) ∧
    (candidateFetch db uid = [] → retrieveRelevantForms db false uid p k = ([], false)) := by
  refine ⟨rfl, ?_, ?_, ?_, ?_⟩
  · unfold fallbackFetch
    rw [List.length_take]
    exact min_le_left _ _
  · unfold fallbackFetch
    exact List.Pairwise.sublist (List.take_sublist _ _)
      (keyInsSort_pairwise (fun f : FormRec => f.createdAt) _)
  · rw [List.forall_iff_forall_mem]
    intro f hf
    unfold fallbackFetch at hf
    have h2 := List.mem_of_mem_take hf
    have h3 := (mem_keyInsSort (fun f : FormRec => f.createdAt) _ _).mp h2
    simpa using (List.mem_filter.mp h3).2
  · intro hc
    unfold retrieveRelevantForms
    rw [if_neg (show ¬(false = true) by simp), if_pos (by rw [hc]; rfl)]

/-- Witness for C2 at a concrete input: the empty store with `k = 3` — the
    failing path returns the fallback with flag true, and the succeeding
    path (zero candidates) returns the empty list with flag false. -/
theorem retrieve_fallback_distinctness_check :
    retrieveRelevantForms [] true 0 [] 3 = (fallbackFetch [] 0 3, true) ∧
    retrieveRelevantForms [] false 0 [] 3 = ([], false) :=
  ⟨(retrieve_fallback_distinctness [] 0 [] 3).1,
   (retrieve_fallback_distinctness [] 0 [] 3).2.2.2.2 rfl⟩

/-- Claim C3 (amended): `retrieve` with `k = 0` returns the empty sequence
    on every path.  (Scoring still happens for `k ≤ 0` — the code slices
    after scoring and sorting — and a negative `k` is NOT guaranteed to
    yield an empty result: `slice(0, k)` with negative `k` drops the last
    `|k|` entries instead; see the counterexample.) -/
theorem retrieve_zero_k_empty (db : List FormRec) (infraFails : Bool) (uid : Nat)
    (p : List Nat) : (retrieveRelevantForms db infraFails uid p 0).1 = [] := by
  cases infraFails with
  | true =>
    show fallbackFetch db uid 0 = []
    unfold fallbackFetch
    rw [Int.toNat_zero, List.take_zero]
  | false =>
    unfold retrieveRelevantForms
    rw [if_neg (show ¬(false = true) by simp)]
    by_cases hc : (candidateFetch db uid).length = 0
    · rw [if_pos hc]
    · rw [if_neg hc]
      show rankedResults db uid p 0 = []
      unfold rankedResults jsSlice0
      rw [if_neg (by norm_num)]
      rw [Int.toNat_zero, List.take_zero, List.filter_nil, List.map_nil]

theorem jsSlice0_coe {α : Type} (l : List α) (k : Nat) : jsSlice0 l (k : Int) = l.take k := by
  unfold jsSlice0
  rw [if_neg (by omega), Int.toNat_natCast]

theorem passesThreshold_mono (x y : FormRec × ℝ) (hle : y.2 ≤ x.2)
    (hy : passesThreshold y = true) : passesThreshold x = true := by
  unfold passesThreshold at hy ⊢
  exact decide_eq_true (lt_of_lt_of_le (of_decide_eq_true hy) hle)

theorem sortScored_pairwise (l : List (FormRec × ℝ)) :
    (sortScored l).Pairwise fun a b => b.2 ≤ a.2 :=
  keyInsSort_pairwise (fun pr : FormRec × ℝ => pr.2) l

/-- Claim C1: for every store, owner, prompt and `k ≥ 0`, the primary path
    returns at most `k` records, sorted by descending similarity, all
    strictly above the 0.1 threshold, and the result is exactly the first
    `k` above-threshold candidates in sorted order (the code slices before
    filtering, but since the list is sorted descending the two orders of
    operations coincide). -/
theorem retrieve_topK_contract (db : List FormRec) (uid : Nat) (p : List Nat) (k : Nat) :
    ((retrieveRelevantForms db false uid p (k : Int)).1).length ≤ k ∧
    ((retrieveRelevantForms db false uid p (k : Int)).1).Pairwise
      (fun f g => score (generateEmbedding p) g ≤ score (generateEmbedding p) f) ∧
    ((retrieveRelevantForms db false uid p (k : Int)).1).Forall
      (fun f => (0.1 : ℝ) < score (generateEmbedding p) f) ∧
    (retrieveRelevantForms db false uid p (k : Int)).1 =
      (((sortScored (scoredList db uid p)).filter passesThreshold).take k).map Prod.fst := by
  have hmain : (retrieveRelevantForms db false uid p (k : Int)).1 =
      (((sortScored (scoredList db uid p)).filter passesThreshold).take k).map Prod.fst := by
    unfold retrieveRelevantForms
    rw [if_neg (show ¬(false = true) by simp)]
    by_cases hc : (candidateFetch db uid).length = 0
    · rw [if_pos hc]
      have hnil : candidateFetch db uid = [] := List.length_eq_zero.mp hc
      have hs : scoredList db uid p = [] := by
        unfold scoredList
        rw [hnil, List.map_nil]
      rw [hs]
      show ([] : List FormRec) = _
      rw [show sortScored [] = [] from rfl, List.filter_nil, List.take_nil, List.map_nil]
    · rw [if_neg hc]
      show rankedResults db uid p (k : Int) = _
      unfold rankedResults
      rw [jsSlice0_coe]
      exact congrArg (List.map Prod.fst)
        (filter_take_comm (fun pr : FormRec × ℝ => pr.2) passesThreshold
          passesThreshold_mono _ (sortScored_pairwise _) k)
  refine ⟨?_, ?_, ?_, hmain⟩
  · rw [hmain, List.length_map, List.length_take]
    exact min_le_left _ _
  · rw [hmain, List.pairwise_map]
    have h1 : (((sortScored (scoredList db uid p)).filter passesThreshold).take k).Pairwise
        (fun a b => b.2 ≤ a.2) :=
      List.Pairwise.sublist (List.take_sublist _ _)
        (List.Pairwise.sublist (List.filter_sublist _) (sortScored_pairwise _))
    refine h1.imp_of_mem ?_
    intro a b ha hb hab
    have hsub : (((sortScored (scoredList db uid p)).filter passesThreshold).take k).Sublist
        (sortScored (scoredList db uid p)) :=
      (List.take_sublist _ _).trans (List.filter_sublist _)
    have ha2 := (mem_sortScored_scored db uid p a (List.Sublist.mem ha hsub)).2
    have hb2 := (mem_sortScored_scored db uid p b (List.Sublist.mem hb hsub)).2
    rw [ha2, hb2] at hab
    exact hab
  · rw [hmain, List.forall_iff_forall_mem]
    intro f hf
    obtain ⟨pr, hpr, rfl⟩ := List.mem_map.mp hf
    have h1 := List.mem_of_mem_take hpr
    have h2 := List.mem_filter.mp h1
    have h3 := (mem_sortScored_scored db uid p pr h2.1).2
    have h4 : (0.1 : ℝ) < pr.2 := by
      have := h2.2
      unfold passesThreshold at this
      exact of_decide_eq_true this
    rw [h3] at h4
    exact h4

/-- Claim C4 (amended): the sort used on the primary path is in descending
    similarity order and stable — candidates with equal similarity keep
    their candidate-fetch (insertion) order rather than being re-ordered
    by `created_at` descending (see the counterexample); the ordering is
    deterministic because the retriever is a pure function of its inputs. -/
theorem retrieve_sort_stable_deterministic (db : List FormRec) (uid : Nat) (p : List Nat) :
    ((sortScored (scoredList db uid p)).Pairwise fun a b => b.2 ≤ a.2) ∧
    ∀ c : ℝ, (sortScored (scoredList db uid p)).filter (fun pr => decide (pr.2 = c)) =
      (scoredList db uid p).filter (fun pr => decide (pr.2 = c)) := by
  constructor
  · exact sortScored_pairwise _
  · intro c
    exact keyInsSort_filter_stable (fun pr : FormRec × ℝ => pr.2) _
      (fun x y hx hy => by
        show x.2 = y.2
        rw [of_decide_eq_true hx, of_decide_eq_true hy]) _

/-! ## Concrete evaluation of the primary path -/

theorem score_exA : score (generateEmbedding []) exA = 1 := cos_vectorize_self []

theorem score_exB : score (generateEmbedding []) exB = 1 := cos_vectorize_self []

theorem scoredList_exDb : scoredList exDb 0 [] = [(exA, 1), (exB, 1)] := by
  show ((candidateFetch exDb 0).map fun f => (f, score (generateEmbedding []) f)) = _
  rw [show candidateFetch exDb 0 = [exA, exB] from rfl]
  simp only [List.map_cons, List.map_nil, score_exA, score_exB]

theorem sortScored_ex : sortScored [(exA, (1 : ℝ)), (exB, 1)] = [(exA, 1), (exB, 1)] := by
  show keyInsSort (fun pr : FormRec × ℝ => pr.2) [(exA, 1), (exB, 1)] = _
  simp only [keyInsSort, keyInsert]
  rw [if_pos (le_refl (1 : ℝ))]

theorem passes_one : passesThreshold (exA, (1 : ℝ)) = true ∧
    passesThreshold (exB, (1 : ℝ)) = true := by
  constructor <;>
    (unfold passesThreshold; rw [decide_eq_true_eq]; norm_num)

theorem filter_passes_ex :
    List.filter passesThreshold [(exA, (1 : ℝ)), (exB, 1)] = [(exA, 1), (exB, 1)] := by
  simp only [List.filter_cons, passes_one.1, passes_one.2, if_true, List.filter_nil]

theorem filter_passes_single :
    List.filter passesThreshold [(exA, (1 : ℝ))] = [(exA, 1)] := by
  simp only [List.filter_cons, passes_one.1, if_true, List.filter_nil]

theorem jsSlice0_two_5 : jsSlice0 [(exA, (1 : ℝ)), (exB, 1)] 5 = [(exA, 1), (exB, 1)] := by
  unfold jsSlice0
  rw [if_neg (by norm_num)]
  rfl

theorem jsSlice0_two_neg1 : jsSlice0 [(exA, (1 : ℝ)), (exB, 1)] (-1) = [(exA, 1)] := by
  unfold jsSlice0
  rw [if_pos (by norm_num)]
  rw [show ((-1 : ℤ) + ([(exA, (1 : ℝ)), (exB, 1)].length : ℤ)).toNat = 1 by simp]
  rfl

theorem candidateFetch_exDb_len : ¬(candidateFetch exDb 0).length = 0 := by
  rw [show candidateFetch exDb 0 = [exA, exB] from rfl]
  simp

theorem retrieve_ex_5 : retrieveRelevantForms exDb false 0 [] 5 = ([exA, exB], false) := by
  unfold retrieveRelevantForms
  rw [if_neg (show ¬(false = true) by simp), if_neg candidateFetch_exDb_len]
  show (rankedResults exDb 0 [] 5, false) = _
  unfold rankedResults
  rw [scoredList_exDb, sortScored_ex, jsSlice0_two_5, filter_passes_ex]
  rfl

theorem retrieve_ex_neg1 : retrieveRelevantForms exDb false 0 [] (-1) = ([exA], false) := by
  unfold retrieveRelevantForms
  rw [if_neg (show ¬(false = true) by simp), if_neg candidateFetch_exDb_len]
  show (rankedResults exDb 0 [] (-1), false) = _
  unfold rankedResults
  rw [scoredList_exDb, sortScored_ex, jsSlice0_two_neg1, filter_passes_single]
  rfl

/-- Claim C3 counterexample: with two above-threshold candidates and
    `k = -1`, the primary path returns one record, not the empty sequence:
    `slice(0, -1)` keeps all but the last element instead of truncating to
    nothing. -/
theorem retrieve_negative_k_not_empty :
    (retrieveRelevantForms exDb false 0 [] (-1)).1 = [exA] ∧
    ([exA] : List FormRec) ≠ [] := by
  constructor
  · rw [retrieve_ex_neg1]
  · simp

/-- Claim C4 counterexample: two candidates with equal similarity (both
    hold the empty prompt's vector, similarity 1) are returned in their
    stored (insertion) order `[exA, exB]`, although `exA` is older than
    `exB` — the comparator never consults `created_at`, so ties are NOT
    broken by `created_at` descending. -/
theorem retrieve_tie_order_cex :
    (retrieveRelevantForms exDb false 0 [] 5).1 = [exA, exB] ∧
    score (generateEmbedding []) exA = score (generateEmbedding []) exB ∧
    exA.createdAt < exB.createdAt := by
  refine ⟨?_, ?_, ?_⟩
  · rw [retrieve_ex_5]
  · rw [score_exA, score_exB]
  · show (1 : ℤ) < 2
    norm_num
